import Mathlib

/-!
# Parallel image processing with MPI: partition, broadcast and gather

A shallow embedding of `ConsoleApplication1.cpp`:

* `distributeImage` (lines 10-26): the row partition and the crop of a rank's tile;
* `gatherProcessedImages` (lines 28-38): allocation of the output raster on rank 0 and
  the `MPI_Gather` of the tiles' bytes;
* `main` (lines 40-343): the broadcast of `choice` and the operation dispatch, as the
  sequence of events one rank performs.

C++ `int` values are integers (`Int`), with the truncating `/` and `%` of C++
(`Int.tdiv`, `Int.tmod`).  For a rank below `world_size` every value that
`distributeImage` computes lies between `0` and `totalRows` (`range_inside`), so no 32-bit
wrap-around is involved there.  Image dimensions, byte counts and buffer offsets are natural
numbers; the product `localImage.rows * world_size` of the gather is taken without
wrap-around.

The OpenCV and MPI calls are library code.  They are represented by what their documentation
says of them: `Mat::operator()(Rect)`, `clone`, `create`, `total`, `elemSize`, and
`MPI_Bcast`, `MPI_Gather` with the datatype `MPI_CHAR` (one byte per count).
-/

namespace ParallelImage

/-! ## OpenCV matrices -/

/-- One byte of pixel memory (`uchar`). -/
abbrev Byte := Fin 256

/-- OpenCV `CV_ELEM_SIZE1`: the bytes of one channel, by depth code
(`CV_8U = 0`, `CV_8S = 1`, `CV_16U = 2`, `CV_16S = 3`, `CV_32S = 4`, `CV_32F = 5`,
`CV_64F = 6`, `CV_16F = 7`). -/
def CV_ELEM_SIZE1 (type : Nat) : Nat :=
  match type % 8 with
  | 0 => 1
  | 1 => 1
  | 2 => 2
  | 3 => 2
  | 4 => 4
  | 5 => 4
  | 6 => 8
  | _ => 2

/-- OpenCV `CV_MAT_CN`: the channel count stored in a type code. -/
def CV_MAT_CN (type : Nat) : Nat := (type / 8) % 512 + 1

/-- OpenCV `CV_ELEM_SIZE`: the bytes of one matrix element (all channels). -/
def CV_ELEM_SIZE (type : Nat) : Nat := CV_MAT_CN type * CV_ELEM_SIZE1 type

/-- The type code `CV_8UC1` of a greyscale image, as `imread(..., IMREAD_GRAYSCALE)` loads. -/
def CV_8UC1 : Nat := 0

/-- A two-dimensional `cv::Mat` that owns its pixel memory: `rows`, `cols`, the type code and
the bytes, row-major. -/
structure Mat where
  rows : Nat
  cols : Nat
  type : Nat
  data : List Byte
deriving DecidableEq, Repr

/-- OpenCV `Mat::elemSize()`. -/
def Mat.elemSize (m : Mat) : Nat := CV_ELEM_SIZE m.type

/-- OpenCV `Mat::total()`: the number of elements, `rows * cols`. -/
def Mat.total (m : Mat) : Nat := m.rows * m.cols

/-- The matrix is continuous and owns exactly `rows * cols * elemSize` bytes. -/
def Mat.Continuous (m : Mat) : Prop := m.data.length = m.rows * m.cols * m.elemSize

instance (m : Mat) : Decidable m.Continuous := by
  unfold Mat.Continuous
  infer_instance

/-- The bytes of the rows `[startRow, startRow + rowCount)` of a continuous matrix. -/
def Mat.rowBytes (m : Mat) (startRow rowCount : Nat) : List Byte :=
  (m.data.drop (startRow * m.cols * m.elemSize)).take (rowCount * m.cols * m.elemSize)

/-- OpenCV `m(Rect(x, y, width, height)).clone()`: the sub-matrix of the rectangle, copied row by row
into memory of its own.  `Mat::operator()` asserts that the rectangle lies inside the matrix;
`none` is the failed assertion. -/
def Mat.cropClone (m : Mat) (x y width height : Int) : Option Mat :=
  if 0 ≤ x ∧ 0 ≤ width ∧ x + width ≤ m.cols ∧ 0 ≤ y ∧ 0 ≤ height ∧ y + height ≤ m.rows then
    some
      { rows := height.toNat
        cols := width.toNat
        type := m.type
        data := (List.range height.toNat).flatMap fun r =>
          (m.data.drop (((y.toNat + r) * m.cols + x.toNat) * m.elemSize)).take
            (width.toNat * m.elemSize) }
  else
    none

/-- OpenCV `m.create(rows, cols, type)`: nothing happens when the matrix already has this
shape and type; otherwise the matrix gets newly allocated memory, whose contents `fresh`
(byte by offset) are whatever the allocator returns.  (OpenCV also reallocates a matrix of
the right shape that has no memory yet; such a matrix has no elements, and the outcome is the
same.) -/
def Mat.create (m : Mat) (rows cols type : Nat) (fresh : Nat → Byte) : Mat :=
  if m.rows = rows ∧ m.cols = cols ∧ m.type = type then m
  else
    { rows := rows
      cols := cols
      type := type
      data := (List.range (rows * cols * CV_ELEM_SIZE type)).map fresh }

/-! ## `distributeImage` -/

/-- Line 12: `int rowsPerProcess = totalRows / world_size;` -/
def rowsPerProcess (totalRows world_size : Int) : Int := Int.tdiv totalRows world_size

/-- Line 13: `int remainingRows = totalRows % world_size;` -/
def remainingRows (totalRows world_size : Int) : Int := Int.tmod totalRows world_size

/-- Line 16: `int startRow = world_rank * rowsPerProcess + min(world_rank, remainingRows);` -/
def startRow (totalRows world_rank world_size : Int) : Int :=
  world_rank * rowsPerProcess totalRows world_size
    + min world_rank (remainingRows totalRows world_size)

/-- Line 19:
`int rowsToSend = (world_rank < remainingRows) ? rowsPerProcess + 1 : rowsPerProcess;` -/
def rowsToSend (totalRows world_rank world_size : Int) : Int :=
  if world_rank < remainingRows totalRows world_size then rowsPerProcess totalRows world_size + 1
  else rowsPerProcess totalRows world_size

/-- The row range `(startRow, rowsToSend)` of every rank `0 .. world_size - 1`, in rank
order. -/
def rowRanges (totalRows : Int) (world_size : Nat) : List (Int × Int) :=
  (List.range world_size).map fun world_rank : Nat =>
    (startRow totalRows world_rank world_size, rowsToSend totalRows world_rank world_size)

/-- Lines 10-26, `distributeImage(inputImage, localImage, world_rank, world_size)`: the value
assigned to `localImage`, the clone of
`inputImage(Rect(0, startRow, inputImage.cols, rowsToSend))`. -/
def distributeImage (inputImage : Mat) (world_rank world_size : Int) : Option Mat :=
  let totalRows : Int := inputImage.rows
  inputImage.cropClone 0 (startRow totalRows world_rank world_size) inputImage.cols
    (rowsToSend totalRows world_rank world_size)

/-! ## `gatherProcessedImages` -/

/-- The error classes of the run. -/
inductive RunError where
  /-- A failed OpenCV assertion (`cv::Exception`). -/
  | cvAssert
  /-- The MPI error `MPI_ERR_TRUNCATE`: a message longer than the receive count. -/
  | mpiTruncate
deriving DecidableEq, Repr

/-- Root side of one receive of `MPI_Gather`: the message of the rank whose block starts at
`offset` is stored there.  A message shorter than `recvcount` fills the head of its block, a
message longer than `recvcount` is a truncation error. -/
def recvBlock (recvbuf : List Byte) (offset recvcount : Nat) (msg : List Byte) :
    Except RunError (List Byte) :=
  if msg.length ≤ recvcount then
    .ok (recvbuf.take offset ++ msg ++ recvbuf.drop (offset + msg.length))
  else
    .error .mpiTruncate

/-- The receives of the root for the ranks `rank, rank + 1, ...`, whose messages are `msgs`. -/
def gatherRecv (recvcount : Nat) : Nat → List (List Byte) → List Byte → Except RunError (List Byte)
  | _, [], recvbuf => .ok recvbuf
  | rank, msg :: msgs, recvbuf =>
    match recvBlock recvbuf (rank * recvcount) recvcount msg with
    | .ok recvbuf => gatherRecv recvcount (rank + 1) msgs recvbuf
    | .error e => .error e

/-- The bytes a rank contributes to a gather with the send arguments `(sendbuf, sendcount)`
and the datatype `MPI_CHAR`: the first `sendcount` bytes of `sendbuf`. -/
def sentBytes (send : List Byte × Nat) : List Byte := send.1.take send.2

/-- The send arguments `localImage.data, localImage.total()` that `gatherProcessedImages`
passes to `MPI_Gather`. -/
def sendArguments (localImage : Mat) : List Byte × Nat := (localImage.data, localImage.total)

/-- The call `MPI_Gather(sendbuf, sendcount, MPI_CHAR, recvbuf, recvcount, MPI_CHAR, 0,
MPI_COMM_WORLD)` with the outcome the MPI standard describes: as if every rank had sent
`sendcount` bytes of its `sendbuf` to the root and the root had received the message of rank
`i` into `recvbuf` at offset `i * recvcount`.  `sends` lists `(sendbuf, sendcount)` by rank;
the result is the receive buffer of the root.  The standard asks that every `sendcount`
equals the `recvcount` of the root; where they differ, the receives behave as `MPI_Recv`
does. -/
def MPI_Gather (sends : List (List Byte × Nat)) (recvbuf : List Byte) (recvcount : Nat) :
    Except RunError (List Byte) :=
  gatherRecv recvcount 0 (sends.map sentBytes) recvbuf

/-- Lines 28-38, `gatherProcessedImages(localImage, gatheredImage, world_rank, world_size)`
run by all ranks: `localImages` lists every rank's `localImage` by rank, `world_size` is their
number, and the result is `gatheredImage` on rank 0 after the call.  Rank 0 creates
`gatheredImage` with `localImage.rows * world_size` rows; every rank sends
`localImage.total()` bytes and rank 0 receives `localImage.total()` bytes from each. -/
def gatherProcessedImages (localImages : List Mat) (gatheredImage : Mat) (fresh : Nat → Byte) :
    Except RunError Mat :=
  match localImages with
  | [] => .ok gatheredImage
  | localImage :: _ =>
    let world_size := localImages.length
    let gatheredImage :=
      gatheredImage.create (localImage.rows * world_size) localImage.cols localImage.type fresh
    match MPI_Gather (localImages.map sendArguments) gatheredImage.data localImage.total with
    | .ok data => .ok { gatheredImage with data := data }
    | .error e => .error e

/-- The identity transform: the tile is returned unchanged. -/
def identityTransform (tile : Mat) : Mat := tile

/-- Crop, transform and gather as `main` chains them, with `transform` in place of the image
operation: every rank crops its tile of `inputImage` with `distributeImage`, applies
`transform`, and the tiles are gathered into `inputImage` on rank 0. -/
def distributeTransformGather (transform : Mat → Mat) (inputImage : Mat) (world_size : Nat)
    (fresh : Nat → Byte) : Except RunError Mat :=
  match (List.range world_size).mapM
      fun world_rank : Nat => distributeImage inputImage world_rank world_size with
  | none => .error .cvAssert
  | some tiles => gatherProcessedImages (tiles.map transform) inputImage fresh

/-! ## `main`: broadcast and dispatch -/

/-- A scalar parameter of an image operation, a C++ `int` or `double`.  The program only
reads these values and hands them to OpenCV; a `double` is represented by a rational. -/
inductive Scalar where
  | int (v : Int)
  | double (v : Rat)
deriving DecidableEq, Repr

/-- The ten image operations of the menu. -/
inductive Operation where
  | gaussianBlur
  | edgeDetection
  | imageRotation
  | imageScaling
  | histogramEqualization
  | colorSpaceConversion
  | globalThresholding
  | localThresholding
  | imageCompression
  | median
deriving DecidableEq, Repr

/-- What the user types on the console of rank 0: the value parsed for `choice` and the value
parsed at each parameter prompt. -/
structure UserInput where
  choice : Int
  blurRadius : Int
  angle : Rat
  scaleX : Rat
  scaleY : Rat
  code : Int
  thresholdValue : Int
  blockSize : Int
  constant : Rat
  compressionFactor : Int
  kernelSize : Int
deriving DecidableEq, Repr

/-- OpenCV `COLOR_BGR2GRAY`. -/
def COLOR_BGR2GRAY : Int := 6

/-- What one rank does in `main`, in program order. -/
inductive Event where
  /-- Console output or a prompt (rank 0 only). -/
  | cout
  /-- The call `MPI_Bcast(&choice, ...)`; `choice` is the value of the variable after it. -/
  | bcast (choice : Int)
  /-- The OpenCV calls of an operation on this rank, with the parameter variables passed. -/
  | transform (op : Operation) (parameters : List Scalar)
  /-- The call of `gatherProcessedImages` (one `MPI_Gather`) that ends an operation. -/
  | gather (op : Operation)
  /-- The call `imwrite(savedPath, inputImage)` (rank 0 only). -/
  | imwrite
deriving DecidableEq, Repr

/-- Line 84, `MPI_Bcast(&choice, 1, MPI_INT, 0, MPI_COMM_WORLD)`: `buffers` gives `choice` on every rank
before the call, the result gives it after the call, which is the value of the root. -/
def MPI_Bcast (buffers : Int → Int) (root : Int) : Int → Int :=
  fun _ => buffers root

/-- A statement inside `if (world_rank == 0) { ... }`. -/
def onRankZero (world_rank : Int) (events : List Event) : List Event :=
  if world_rank = 0 then events else []

/-- A parameter variable declared with an initial value and then read from the console inside
`if (world_rank == 0) { ...; cin >> variable; }`. -/
def readOnRankZero {α : Type} (world_rank : Int) (initial typed : α) : α :=
  if world_rank = 0 then typed else initial

/-- The body of one operation branch: prompt, transform with the parameter variables, report,
gather.  The OpenCV calls are taken to return. -/
def operationBody (world_rank : Int) (op : Operation) (parameters : List Scalar) : List Event :=
  onRankZero world_rank [.cout] ++ [.transform op parameters]
    ++ onRankZero world_rank [.cout] ++ [.gather op]

/-- The operation dispatch of `main` (lines 87-330): `if (choice == 1)`, `if (choice == 2)`, the
chain `if (choice == 3) ... else if (choice == 9)`, and `if (choice == 10)`, one after the
other. -/
def dispatch (world_rank choice : Int) (stdin : UserInput) : List Event :=
  (if choice = 1 then
      let blurRadius := readOnRankZero world_rank 9 stdin.blurRadius
      operationBody world_rank .gaussianBlur [.int blurRadius]
    else [])
  ++ (if choice = 2 then
      operationBody world_rank .edgeDetection []
    else [])
  ++ (if choice = 3 then
      let angle := readOnRankZero world_rank 45 stdin.angle
      operationBody world_rank .imageRotation [.double angle]
    else if choice = 4 then
      let scaleX := readOnRankZero world_rank (3 / 2) stdin.scaleX
      let scaleY := readOnRankZero world_rank (3 / 2) stdin.scaleY
      operationBody world_rank .imageScaling [.double scaleX, .double scaleY]
    else if choice = 5 then
      operationBody world_rank .histogramEqualization []
    else if choice = 6 then
      let code := readOnRankZero world_rank COLOR_BGR2GRAY stdin.code
      operationBody world_rank .colorSpaceConversion [.int code]
    else if choice = 7 then
      let thresholdValue := readOnRankZero world_rank 128 stdin.thresholdValue
      operationBody world_rank .globalThresholding [.int thresholdValue]
    else if choice = 8 then
      let blockSize := readOnRankZero world_rank 11 stdin.blockSize
      let constant := readOnRankZero world_rank 2 stdin.constant
      operationBody world_rank .localThresholding [.int blockSize, .double constant]
    else if choice = 9 then
      let compressionFactor := readOnRankZero world_rank 70 stdin.compressionFactor
      operationBody world_rank .imageCompression [.int compressionFactor]
    else [])
  ++ (if choice = 10 then
      let kernelSize := readOnRankZero world_rank 5 stdin.kernelSize
      operationBody world_rank .median [.int kernelSize]
    else [])

/-- The variable `choice` of a rank after the broadcast.  Before it, rank 0 holds the parsed
console input and every other rank an uninitialised value `uninit rank`. -/
def choiceAfterBcast (world_rank : Int) (stdin : UserInput) (uninit : Int → Int) : Int :=
  MPI_Bcast (fun rank => if rank = 0 then stdin.choice else uninit rank) 0 world_rank

/-- The events of `main` on one rank, from the menu to the write of the output file. -/
def main (world_rank : Int) (stdin : UserInput) (uninit : Int → Int) : List Event :=
  let choice := choiceAfterBcast world_rank stdin uninit
  onRankZero world_rank [.cout] ++ [.bcast choice] ++ dispatch world_rank choice stdin
    ++ onRankZero world_rank [.imwrite, .cout]

/-- The operation request a rank works with: the selector and the parameters in order. -/
structure OperationRequest where
  selector : Int
  parameters : List Scalar
deriving DecidableEq, Repr

/-- The parameters a sequence of events passes to its transforms. -/
def parametersOf : List Event → List Scalar
  | [] => []
  | .transform _ parameters :: rest => parameters ++ parametersOf rest
  | _ :: rest => parametersOf rest

/-- The operation request of a rank after the broadcast: its `choice` and the parameter
variables its transform is called with. -/
def operationRequest (world_rank : Int) (stdin : UserInput) (uninit : Int → Int) :
    OperationRequest :=
  { selector := choiceAfterBcast world_rank stdin uninit
    parameters := parametersOf (main world_rank stdin uninit) }

theorem rowsPerProcess_eq_ediv {totalRows world_size : Int} (hRows : 0 ≤ totalRows)
    (hSize : 0 ≤ world_size) : rowsPerProcess totalRows world_size = totalRows / world_size :=
  Int.tdiv_eq_ediv hRows hSize

theorem remainingRows_eq_emod {totalRows world_size : Int} (hRows : 0 ≤ totalRows)
    (hSize : 0 ≤ world_size) : remainingRows totalRows world_size = totalRows % world_size :=
  Int.tmod_eq_emod hRows hSize

theorem remainingRows_nonneg {totalRows world_size : Int} (hRows : 0 ≤ totalRows)
    (hSize : 1 ≤ world_size) : 0 ≤ remainingRows totalRows world_size := by
  rw [remainingRows_eq_emod hRows (by omega)]
  exact Int.emod_nonneg _ (by omega)

theorem remainingRows_lt {totalRows world_size : Int} (hRows : 0 ≤ totalRows)
    (hSize : 1 ≤ world_size) : remainingRows totalRows world_size < world_size := by
  rw [remainingRows_eq_emod hRows (by omega)]
  exact Int.emod_lt_of_pos _ (by omega)

theorem rowsPerProcess_nonneg {totalRows world_size : Int} (hRows : 0 ≤ totalRows)
    (hSize : 1 ≤ world_size) : 0 ≤ rowsPerProcess totalRows world_size := by
  rw [rowsPerProcess_eq_ediv hRows (by omega)]
  exact Int.ediv_nonneg hRows (by omega)

theorem rows_split (totalRows world_size : Int) :
    world_size * rowsPerProcess totalRows world_size + remainingRows totalRows world_size
      = totalRows := by
  have h := Int.tmod_add_tdiv totalRows world_size
  unfold rowsPerProcess remainingRows
  omega

/-- The next start row is this start row plus this row count, for every rank from 0 on. -/
theorem startRow_succ (totalRows world_size : Int) (i : Nat) :
    startRow totalRows ((i : Int) + 1) world_size
      = startRow totalRows i world_size + rowsToSend totalRows i world_size := by
  unfold startRow rowsToSend
  generalize rowsPerProcess totalRows world_size = b
  generalize remainingRows totalRows world_size = r
  split_ifs with h
  · rw [min_eq_left (by omega), min_eq_left (by omega)]; ring
  · rw [min_eq_right (by omega), min_eq_right (by omega)]; ring

theorem sum_rowsToSend (totalRows world_size : Int) (n : Nat) :
    ∑ i in Finset.range n, rowsToSend totalRows i world_size
      = startRow totalRows n world_size - startRow totalRows 0 world_size := by
  induction n with
  | zero => simp
  | succ n ih =>
    rw [Finset.sum_range_succ, ih]
    have h := startRow_succ totalRows world_size n
    push_cast
    omega

theorem startRow_zero {totalRows world_size : Int} (hRows : 0 ≤ totalRows)
    (hSize : 1 ≤ world_size) : startRow totalRows 0 world_size = 0 := by
  have h := remainingRows_nonneg hRows hSize
  unfold startRow
  rw [min_eq_left h]
  simp

theorem startRow_world_size {totalRows world_size : Int} (hRows : 0 ≤ totalRows)
    (hSize : 1 ≤ world_size) : startRow totalRows world_size world_size = totalRows := by
  have h := remainingRows_lt hRows hSize
  have h2 := rows_split totalRows world_size
  unfold startRow
  rw [min_eq_right (by omega)]
  omega

theorem rowsToSend_nonneg {totalRows world_size : Int} (hRows : 0 ≤ totalRows)
    (hSize : 1 ≤ world_size) (world_rank : Int) : 0 ≤ rowsToSend totalRows world_rank world_size := by
  have h := rowsPerProcess_nonneg hRows hSize
  unfold rowsToSend
  split_ifs <;> omega

/-- Claim C1 (partition totality).  For `totalRows ≥ 0` and `world_size ≥ 1`, the row ranges that
`distributeImage` computes for the ranks `0 .. world_size - 1` start at row 0 for rank 0, each
next range starts where the previous one ends (no gap, no overlap), the row counts are not
negative (so the ranges are ordered by start row), and the row counts sum to `totalRows`. -/
theorem partition_totality (totalRows : Int) (world_size : Nat) (hRows : 0 ≤ totalRows)
    (hSize : 1 ≤ world_size) :
    startRow totalRows 0 world_size = 0
    ∧ (∀ i : Nat, i + 1 < world_size →
        startRow totalRows ((i : Int) + 1) world_size
          = startRow totalRows i world_size + rowsToSend totalRows i world_size)
    ∧ (∀ i : Nat, i < world_size → 0 ≤ rowsToSend totalRows i world_size)
    ∧ (∀ i : Nat, i + 1 < world_size →
        startRow totalRows i world_size ≤ startRow totalRows ((i : Int) + 1) world_size)
    ∧ ∑ i in Finset.range world_size, rowsToSend totalRows i world_size = totalRows := by
  have hSize' : (1 : Int) ≤ world_size := by exact_mod_cast hSize
  refine ⟨startRow_zero hRows hSize', fun i _ => startRow_succ _ _ i,
    fun i _ => rowsToSend_nonneg hRows hSize' i, fun i _ => ?_, ?_⟩
  · have h1 := startRow_succ totalRows world_size i
    have h2 := rowsToSend_nonneg hRows hSize' (i : Int)
    omega
  · rw [sum_rowsToSend, startRow_zero hRows hSize', startRow_world_size hRows hSize']
    simp

theorem partition_totality_witness :
    startRow 10 0 (3 : Nat) = 0
    ∧ (∀ i : Nat, i + 1 < 3 →
        startRow 10 ((i : Int) + 1) (3 : Nat) = startRow 10 i (3 : Nat) + rowsToSend 10 i (3 : Nat))
    ∧ (∀ i : Nat, i < 3 → 0 ≤ rowsToSend 10 i (3 : Nat))
    ∧ (∀ i : Nat, i + 1 < 3 → startRow 10 i (3 : Nat) ≤ startRow 10 ((i : Int) + 1) (3 : Nat))
    ∧ ∑ i in Finset.range 3, rowsToSend 10 i (3 : Nat) = 10 :=
  partition_totality 10 3 (by decide) (by decide)

/-- Claim C2 (partition fairness).  For `totalRows ≥ 0`, `world_size ≥ 1` and two ranks
`i, j < world_size`, the row counts that `distributeImage` computes for `i` and `j` differ by
at most 1. -/
theorem partition_fairness (totalRows : Int) (world_size i j : Nat) (hRows : 0 ≤ totalRows)
    (hSize : 1 ≤ world_size) (hi : i < world_size) (hj : j < world_size) :
    |rowsToSend totalRows i world_size - rowsToSend totalRows j world_size| ≤ 1 := by
  unfold rowsToSend
  rw [abs_le]
  split_ifs <;> constructor <;> omega

theorem partition_fairness_witness :
    |rowsToSend 10 (0 : Nat) (3 : Nat) - rowsToSend 10 (2 : Nat) (3 : Nat)| ≤ 1 :=
  partition_fairness 10 3 0 2 (by decide) (by decide) (by decide) (by decide)

/-- Claim C3 (partition formula).  For `totalRows ≥ 0`, `world_size ≥ 1` and a rank
`i < world_size`, with `base = totalRows div world_size` and
`remainder = totalRows mod world_size`, `distributeImage` computes the start row
`i * base + min i remainder` and the row count `base + 1` if `i < remainder`, else `base`; the
ranks with the extra row are exactly the ranks below `remainder`.  For 10 rows and 3 ranks the
ranges are `[0,4)`, `[4,7)`, `[7,10)`; for 0 rows and 4 ranks all four ranges are empty and
start at row 0. -/
theorem partition_formula :
    (∀ (totalRows : Int) (world_size i : Nat), 0 ≤ totalRows → 1 ≤ world_size → i < world_size →
      startRow totalRows i world_size
          = i * (totalRows / world_size) + min (i : Int) (totalRows % world_size)
      ∧ rowsToSend totalRows i world_size
          = (if (i : Int) < totalRows % world_size then totalRows / world_size + 1
             else totalRows / world_size)
      ∧ (rowsToSend totalRows i world_size = totalRows / world_size + 1
          ↔ (i : Int) < totalRows % world_size))
    ∧ rowRanges 10 3 = [(0, 4), (4, 3), (7, 3)]
    ∧ rowRanges 0 4 = [(0, 0), (0, 0), (0, 0), (0, 0)] := by
  refine ⟨fun totalRows world_size i hRows hSize _ => ?_, by decide, by decide⟩
  have hSize' : (0 : Int) ≤ world_size := by omega
  unfold startRow rowsToSend
  rw [rowsPerProcess_eq_ediv hRows hSize', remainingRows_eq_emod hRows hSize']
  refine ⟨rfl, rfl, ?_⟩
  split_ifs with h
  · simp [h]
  · simp [h]

theorem partition_formula_witness :
    startRow 10 (1 : Nat) (3 : Nat) = (1 : Nat) * (10 / (3 : Nat)) + min ((1 : Nat) : Int) (10 % (3 : Nat))
    ∧ rowsToSend 10 (1 : Nat) (3 : Nat)
        = (if ((1 : Nat) : Int) < 10 % (3 : Nat) then 10 / (3 : Nat) + 1 else 10 / (3 : Nat))
    ∧ (rowsToSend 10 (1 : Nat) (3 : Nat) = 10 / (3 : Nat) + 1 ↔ ((1 : Nat) : Int) < 10 % (3 : Nat)) :=
  partition_formula.1 10 3 1 (by decide) (by decide) (by decide)


/-! ## The gather -/

theorem CV_ELEM_SIZE_pos (type : Nat) : 1 ≤ CV_ELEM_SIZE type := by
  have h1 : 1 ≤ CV_ELEM_SIZE1 type := by
    unfold CV_ELEM_SIZE1
    split <;> omega
  have h2 : 1 ≤ CV_MAT_CN type := by
    unfold CV_MAT_CN
    omega
  unfold CV_ELEM_SIZE
  exact Nat.mul_le_mul h2 h1

/-- Storing a message of `n` bytes at offset `k` keeps the length of the buffer. -/
theorem length_store (buf msg : List Byte) (k : Nat) (h : k + msg.length ≤ buf.length) :
    (buf.take k ++ msg ++ buf.drop (k + msg.length)).length = buf.length := by
  simp only [List.length_append, List.length_take, List.length_drop]
  omega

/-- When every message has exactly `recvcount` bytes and the receive buffer is long enough,
the receives of the root succeed and replace the blocks of the ranks by their messages, in
rank order; the bytes before and after these blocks stay. -/
theorem gatherRecv_exact (recvcount : Nat) (msgs : List (List Byte))
    (hlen : ∀ m ∈ msgs, m.length = recvcount) (rank : Nat) (recvbuf : List Byte)
    (hbuf : (rank + msgs.length) * recvcount ≤ recvbuf.length) :
    gatherRecv recvcount rank msgs recvbuf
      = .ok (recvbuf.take (rank * recvcount) ++ msgs.flatten
          ++ recvbuf.drop ((rank + msgs.length) * recvcount)) := by
  induction msgs generalizing rank recvbuf with
  | nil => simp [gatherRecv]
  | cons m ms ih =>
    have hm : m.length = recvcount := hlen m (List.mem_cons_self _ _)
    have hms : ∀ x ∈ ms, x.length = recvcount := fun x hx => hlen x (List.mem_cons_of_mem _ hx)
    have hbuf' : (rank + 1 + ms.length) * recvcount ≤ recvbuf.length := by
      have : rank + (m :: ms).length = rank + 1 + ms.length := by simp; omega
      rw [this] at hbuf
      exact hbuf
    have hk : rank * recvcount + m.length ≤ recvbuf.length := by
      have : (rank + 1) * recvcount ≤ (rank + 1 + ms.length) * recvcount :=
        Nat.mul_le_mul_right _ (by omega)
      rw [hm]
      have e : (rank + 1) * recvcount = rank * recvcount + recvcount := by ring
      omega
    have hstep : recvBlock recvbuf (rank * recvcount) recvcount m
        = .ok (recvbuf.take (rank * recvcount) ++ m
            ++ recvbuf.drop (rank * recvcount + m.length)) := by
      unfold recvBlock
      rw [if_pos (le_of_eq hm)]
    rw [gatherRecv, hstep]
    simp only
    rw [ih hms (rank + 1) _ (by rw [length_store _ _ _ hk]; exact hbuf')]
    have hA : (recvbuf.take (rank * recvcount) ++ m).length = (rank + 1) * recvcount := by
      rw [List.length_append, List.length_take, hm, Nat.min_eq_left (by omega)]
      ring
    have htake : (recvbuf.take (rank * recvcount) ++ m
          ++ recvbuf.drop (rank * recvcount + m.length)).take ((rank + 1) * recvcount)
        = recvbuf.take (rank * recvcount) ++ m := List.take_left' hA
    have hdrop : (recvbuf.take (rank * recvcount) ++ m
          ++ recvbuf.drop (rank * recvcount + m.length)).drop ((rank + 1 + ms.length) * recvcount)
        = recvbuf.drop ((rank + 1 + ms.length) * recvcount) := by
      have e : (rank + 1 + ms.length) * recvcount
          = (rank + 1) * recvcount + ms.length * recvcount := by ring
      rw [e, ← List.drop_drop, List.drop_left' hA, List.drop_drop, hm]
      congr 1
      ring
    rw [htake, hdrop]
    have e2 : rank + (m :: ms).length = rank + 1 + ms.length := by simp; omega
    rw [e2]
    simp [List.append_assoc]

theorem create_rows (m : Mat) (rows cols type : Nat) (fresh : Nat → Byte) :
    (m.create rows cols type fresh).rows = rows := by
  unfold Mat.create
  split_ifs with h
  · exact h.1
  · rfl

theorem create_cols (m : Mat) (rows cols type : Nat) (fresh : Nat → Byte) :
    (m.create rows cols type fresh).cols = cols := by
  unfold Mat.create
  split_ifs with h
  · exact h.2.1
  · rfl

theorem create_type (m : Mat) (rows cols type : Nat) (fresh : Nat → Byte) :
    (m.create rows cols type fresh).type = type := by
  unfold Mat.create
  split_ifs with h
  · exact h.2.2
  · rfl

theorem create_length (m : Mat) (hm : m.Continuous) (rows cols type : Nat) (fresh : Nat → Byte) :
    (m.create rows cols type fresh).data.length = rows * cols * CV_ELEM_SIZE type := by
  unfold Mat.create
  split_ifs with h
  · obtain ⟨h1, h2, h3⟩ := h
    rw [← h1, ← h2, ← h3]
    exact hm
  · simp

/-- The message a rank contributes to the gather: the first `total()` bytes of its tile. -/
theorem length_take_total (t : Mat) (ht : t.Continuous) : (t.data.take t.total).length = t.total := by
  have h := CV_ELEM_SIZE_pos t.type
  unfold Mat.Continuous Mat.elemSize at ht
  rw [List.length_take, ht]
  unfold Mat.total
  exact Nat.min_eq_left (Nat.le_mul_of_pos_right _ h)

/-- When every rank's tile has as many elements as the tile of rank 0, the gather raises no
error; the raster of rank 0 has `localImage.rows * world_size` rows, and its data are the
first `total()` bytes of every tile, rank after rank, followed by the bytes of the created
raster that no message reached. -/
theorem gatherProcessedImages_equal_total (localImage : Mat) (others : List Mat)
    (gatheredImage : Mat) (fresh : Nat → Byte)
    (hTotal : ∀ t ∈ localImage :: others, t.total = localImage.total)
    (hCont : ∀ t ∈ localImage :: others, t.Continuous) (hGathered : gatheredImage.Continuous) :
    gatherProcessedImages (localImage :: others) gatheredImage fresh
      = .ok
        { rows := localImage.rows * (others.length + 1)
          cols := localImage.cols
          type := localImage.type
          data := ((localImage :: others).map fun t => t.data.take t.total).flatten
            ++ ((gatheredImage.create (localImage.rows * (others.length + 1)) localImage.cols
                  localImage.type fresh).data.drop ((others.length + 1) * localImage.total)) } := by
  have hlen : ∀ m ∈ ((localImage :: others).map fun t => t.data.take t.total),
      m.length = localImage.total := by
    intro m hm
    obtain ⟨t, ht, rfl⟩ := List.mem_map.1 hm
    rw [length_take_total t (hCont t ht), hTotal t ht]
  have hbuf : (0 + ((localImage :: others).map fun t => t.data.take t.total).length)
        * localImage.total
      ≤ (gatheredImage.create (localImage.rows * (others.length + 1)) localImage.cols
          localImage.type fresh).data.length := by
    rw [create_length _ hGathered]
    have h := CV_ELEM_SIZE_pos localImage.type
    simp only [List.length_map, List.length_cons, Nat.zero_add]
    unfold Mat.total
    calc (others.length + 1) * (localImage.rows * localImage.cols)
        = localImage.rows * (others.length + 1) * localImage.cols := by ring
      _ ≤ localImage.rows * (others.length + 1) * localImage.cols
            * CV_ELEM_SIZE localImage.type := Nat.le_mul_of_pos_right _ h
  have hg := gatherRecv_exact localImage.total _ hlen 0 _ hbuf
  simp only [gatherProcessedImages, MPI_Gather, List.map_map, List.length_cons]
  have hmap : (sentBytes ∘ sendArguments) = fun t : Mat => t.data.take t.total := rfl
  rw [hmap, hg]
  simp [create_rows, create_cols, create_type]


/-- The gather of equal tiles of single-byte elements: rank 0 gets a raster of `h` times the
number of ranks rows whose data are the tiles' data one after the other in rank order. -/
theorem gather_equal_tiles (localImage : Mat) (others : List Mat) (gatheredImage : Mat)
    (fresh : Nat → Byte) (h w : Nat)
    (hShape : ∀ t ∈ localImage :: others, t.rows = h ∧ t.cols = w ∧ t.elemSize = 1)
    (hCont : ∀ t ∈ localImage :: others, t.Continuous) (hGathered : gatheredImage.Continuous) :
    gatherProcessedImages (localImage :: others) gatheredImage fresh
      = .ok ⟨h * (others.length + 1), w, localImage.type,
          ((localImage :: others).map Mat.data).flatten⟩ := by
  obtain ⟨hr0, hc0, he0⟩ := hShape localImage (List.mem_cons_self _ _)
  have hdata : ∀ t ∈ localImage :: others, t.data.length = h * w := by
    intro t ht
    obtain ⟨hr, hc, he⟩ := hShape t ht
    have := hCont t ht
    unfold Mat.Continuous at this
    rw [this, hr, hc, he, Nat.mul_one]
  have htotal : ∀ t ∈ localImage :: others, t.total = h * w := by
    intro t ht
    obtain ⟨hr, hc, _⟩ := hShape t ht
    unfold Mat.total
    rw [hr, hc]
  have hmsgs : ((localImage :: others).map fun t => t.data.take t.total)
      = (localImage :: others).map Mat.data := by
    apply List.map_congr_left
    intro t ht
    rw [htotal t ht, ← hdata t ht, List.take_length]
  have hrest : (gatheredImage.create (localImage.rows * (others.length + 1)) localImage.cols
      localImage.type fresh).data.drop ((others.length + 1) * localImage.total) = [] := by
    apply List.drop_eq_nil_of_le
    rw [create_length _ hGathered]
    have he0' : CV_ELEM_SIZE localImage.type = 1 := he0
    rw [he0', Nat.mul_one]
    unfold Mat.total
    exact le_of_eq (by ring)
  have hrun := gatherProcessedImages_equal_total localImage others gatheredImage fresh
    (fun t ht => by rw [htotal t ht, htotal localImage (List.mem_cons_self _ _)]) hCont hGathered
  rw [hmsgs, hrest, List.append_nil, hr0, hc0] at hrun
  exact hrun

/-- Claim C7 (gather output size), at the failing input.  For the two tiles that
`distributeImage` cuts from a raster of 3 rows for 2 ranks, with 2 rows and 1 row,
`gatherProcessedImages` allocates on rank 0 a raster of `2 * 2 = 4` rows, not of the
`2 + 1 = 3` rows that the tiles have together. -/
theorem gather_rows_not_sum :
    ∀ fresh : Nat → Byte, ∃ out : Mat,
      gatherProcessedImages [⟨2, 1, CV_8UC1, [10, 20]⟩, ⟨1, 1, CV_8UC1, [30]⟩]
          ⟨3, 1, CV_8UC1, [10, 20, 30]⟩ fresh = .ok out
      ∧ out.rows = 4
      ∧ ([(⟨2, 1, CV_8UC1, [10, 20]⟩ : Mat), ⟨1, 1, CV_8UC1, [30]⟩].map Mat.rows).sum = 3 :=
  fun fresh => ⟨⟨4, 1, CV_8UC1, [10, 20, 30, fresh 3]⟩, rfl, rfl, rfl⟩

/-- Claim C4 (gather round-trip), at the failing input.  A greyscale raster of 3 rows and 1
column with the bytes 1, 2, 3 is cropped for 2 ranks, every tile goes through the identity
transform, and the tiles are gathered: rank 0 ends with a raster of 4 rows, one more than
the original, whose fourth row holds whatever the newly allocated memory held. -/
theorem round_trip_three_rows_two_ranks :
    ∀ fresh : Nat → Byte,
      distributeTransformGather identityTransform ⟨3, 1, CV_8UC1, [1, 2, 3]⟩ 2 fresh
        = .ok ⟨4, 1, CV_8UC1, [1, 2, 3, fresh 3]⟩ :=
  fun _ => rfl


/-! ## Broadcast and dispatch -/

/-- Claim C5 (broadcast identity), at the failing input.  The user chooses operation 1 and
types the blur radius 3.  After the broadcast rank 1 holds the selector 1 like rank 0, but its
transform runs with `blurRadius = 9`, the initial value of the variable, while rank 0 runs
with the 3 that the user typed: the parameter is read on rank 0 and never broadcast. -/
theorem broadcast_omits_parameters :
    ∀ uninit : Int → Int,
      operationRequest 0 ⟨1, 3, 0, 0, 0, 0, 0, 0, 0, 0, 0⟩ uninit = ⟨1, [.int 3]⟩
      ∧ operationRequest 1 ⟨1, 3, 0, 0, 0, 0, 0, 0, 0, 0, 0⟩ uninit = ⟨1, [.int 9]⟩ :=
  fun _ => ⟨rfl, rfl⟩

/-- The row range of a rank lies inside the raster: neither the start row nor the row count
is negative and the range ends at row `totalRows` at the latest.  In particular every value
that `distributeImage` computes lies between 0 and `totalRows`. -/
theorem range_inside {totalRows world_size : Int} (hRows : 0 ≤ totalRows)
    (hSize : 1 ≤ world_size) (world_rank : Nat) (hRank : (world_rank : Int) < world_size) :
    0 ≤ startRow totalRows world_rank world_size
    ∧ 0 ≤ rowsToSend totalRows world_rank world_size
    ∧ startRow totalRows world_rank world_size + rowsToSend totalRows world_rank world_size
        ≤ totalRows := by
  have hb := rowsPerProcess_nonneg hRows hSize
  have hr := remainingRows_nonneg hRows hSize
  have hsplit := rows_split totalRows world_size
  have hsucc := startRow_succ totalRows world_size world_rank
  refine ⟨?_, rowsToSend_nonneg hRows hSize _, ?_⟩
  · unfold startRow
    have h1 : 0 ≤ (world_rank : Int) * rowsPerProcess totalRows world_size :=
      Int.mul_nonneg (by omega) hb
    have h2 : 0 ≤ min (world_rank : Int) (remainingRows totalRows world_size) :=
      le_min (by omega) hr
    omega
  · rw [← hsucc]
    unfold startRow
    have h1 : ((world_rank : Int) + 1) * rowsPerProcess totalRows world_size
        ≤ world_size * rowsPerProcess totalRows world_size :=
      Int.mul_le_mul_of_nonneg_right (by omega) hb
    have h2 : min ((world_rank : Int) + 1) (remainingRows totalRows world_size)
        ≤ remainingRows totalRows world_size := min_le_right _ _
    omega

/-- Consecutive rows of `c` bytes each, copied one after the other, are one contiguous slice
of the buffer. -/
theorem flatMap_rows (l : List Byte) (y c n : Nat) :
    ((List.range n).flatMap fun r => (l.drop ((y + r) * c)).take c)
      = (l.drop (y * c)).take (n * c) := by
  induction n with
  | zero => simp
  | succ n ih =>
    rw [List.range_succ, List.flatMap_append, ih, List.flatMap_singleton]
    have e : (n + 1) * c = n * c + c := by ring
    rw [e, List.take_add, List.drop_drop]
    congr 3
    ring

/-- For every rank below `world_size` the crop of `distributeImage` succeeds: the tile has
`rowsToSend` rows, the columns and the type of the input, and the bytes of the rows
`[startRow, startRow + rowsToSend)` of the input. -/
theorem distributeImage_eq (inputImage : Mat) (world_rank world_size : Nat)
    (hSize : 1 ≤ world_size) (hRank : world_rank < world_size) :
    distributeImage inputImage world_rank world_size
      = some
        { rows := (rowsToSend inputImage.rows world_rank world_size).toNat
          cols := inputImage.cols
          type := inputImage.type
          data := inputImage.rowBytes (startRow inputImage.rows world_rank world_size).toNat
            (rowsToSend inputImage.rows world_rank world_size).toNat } := by
  have hin := range_inside (Int.ofNat_nonneg inputImage.rows)
    (by exact_mod_cast hSize : (1 : Int) ≤ world_size) world_rank (by exact_mod_cast hRank)
  obtain ⟨h1, h2, h3⟩ := hin
  unfold distributeImage Mat.cropClone
  simp only
  rw [if_pos ⟨le_refl _, Int.ofNat_nonneg _, by omega, h1, h2, h3⟩]
  simp only [Int.toNat_ofNat, Int.toNat_zero, Nat.add_zero, Mat.rowBytes, Option.some.injEq,
    Mat.mk.injEq, true_and]
  have hrows := flatMap_rows inputImage.data
    (startRow inputImage.rows world_rank world_size).toNat (inputImage.cols * inputImage.elemSize)
    (rowsToSend inputImage.rows world_rank world_size).toNat
  simp only [← Nat.mul_assoc] at hrows
  exact hrows

theorem mapM_eq_some_map {α β : Type} (f : α → Option β) (g : α → β) (l : List α)
    (h : ∀ x ∈ l, f x = some (g x)) : l.mapM f = some (l.map g) := by
  induction l with
  | nil => rw [List.mapM_nil]; rfl
  | cons a as ih =>
    rw [List.mapM_cons, h a (List.mem_cons_self _ _),
      ih (fun x hx => h x (List.mem_cons_of_mem _ hx))]
    rfl

/-- When the number of ranks divides the number of rows and the elements are single bytes,
crop, identity transform and gather give back the input raster on rank 0. -/
theorem distributeTransformGather_identity (inputImage : Mat) (world_size : Nat)
    (fresh : Nat → Byte) (hSize : 1 ≤ world_size) (hCont : inputImage.Continuous)
    (hElem : inputImage.elemSize = 1) (hDvd : world_size ∣ inputImage.rows) :
    distributeTransformGather identityTransform inputImage world_size fresh = .ok inputImage := by
  obtain ⟨h, hh⟩ := hDvd
  have hW : (0 : Int) < world_size := by exact_mod_cast hSize
  have hbase : rowsPerProcess inputImage.rows world_size = h := by
    rw [rowsPerProcess_eq_ediv (by omega) (by omega), hh]
    push_cast
    exact Int.mul_ediv_cancel_left _ (by omega)
  have hrem : remainingRows inputImage.rows world_size = 0 := by
    rw [remainingRows_eq_emod (by omega) (by omega), hh]
    push_cast
    exact Int.mul_emod_right _ _
  have hcount : ∀ r : Nat, rowsToSend inputImage.rows r world_size = h := by
    intro r
    unfold rowsToSend
    rw [hrem, hbase, if_neg (by omega)]
  have hstart : ∀ r : Nat, startRow inputImage.rows r world_size = ((r * h : Nat) : Int) := by
    intro r
    unfold startRow
    rw [hrem, hbase, min_eq_right (by omega)]
    push_cast
    ring
  have htiles : (List.range world_size).mapM
        (fun r : Nat => distributeImage inputImage r world_size)
      = some ((List.range world_size).map fun r : Nat =>
          (⟨h, inputImage.cols, inputImage.type, inputImage.rowBytes (r * h) h⟩ : Mat)) := by
    apply mapM_eq_some_map
    intro r hr
    rw [distributeImage_eq inputImage r world_size hSize (List.mem_range.1 hr), hcount r,
      hstart r, Int.toNat_ofNat, Int.toNat_ofNat]
  have hElem' : CV_ELEM_SIZE inputImage.type = 1 := hElem
  have hlen : inputImage.data.length = world_size * (h * inputImage.cols) := by
    unfold Mat.Continuous at hCont
    rw [hCont, hElem, hh]
    ring
  have hblock : ∀ r : Nat, r < world_size →
      (inputImage.rowBytes (r * h) h).length = h * inputImage.cols := by
    intro r hr
    unfold Mat.rowBytes
    rw [hElem, List.length_take, List.length_drop, hlen]
    have : (r + 1) * (h * inputImage.cols) ≤ world_size * (h * inputImage.cols) :=
      Nat.mul_le_mul_right _ hr
    have e : (r + 1) * (h * inputImage.cols) = r * h * inputImage.cols + h * inputImage.cols := by
      ring
    simp only [Nat.mul_one]
    omega
  obtain ⟨P, rfl⟩ : ∃ P, world_size = P + 1 := ⟨world_size - 1, by omega⟩
  have hrange : List.range (P + 1) = 0 :: List.range' 1 P := by
    rw [List.range_eq_range', List.range'_succ]
  unfold distributeTransformGather
  rw [htiles]
  simp only [List.map_map]
  have hfun : (identityTransform ∘ fun r : Nat =>
        (⟨h, inputImage.cols, inputImage.type, inputImage.rowBytes (r * h) h⟩ : Mat))
      = fun r : Nat =>
        (⟨h, inputImage.cols, inputImage.type, inputImage.rowBytes (r * h) h⟩ : Mat) := rfl
  rw [hfun]
  have hplace := gather_equal_tiles
    (⟨h, inputImage.cols, inputImage.type, inputImage.rowBytes (0 * h) h⟩ : Mat)
    ((List.range' 1 P).map fun r : Nat =>
      (⟨h, inputImage.cols, inputImage.type, inputImage.rowBytes (r * h) h⟩ : Mat))
    inputImage fresh h inputImage.cols
    (by
      intro t ht
      rw [← List.map_cons (fun r : Nat =>
        (⟨h, inputImage.cols, inputImage.type, inputImage.rowBytes (r * h) h⟩ : Mat))] at ht
      obtain ⟨r, _, rfl⟩ := List.mem_map.1 ht
      exact ⟨rfl, rfl, hElem⟩)
    (by
      intro t ht
      rw [← List.map_cons (fun r : Nat =>
        (⟨h, inputImage.cols, inputImage.type, inputImage.rowBytes (r * h) h⟩ : Mat)),
        ← hrange] at ht
      obtain ⟨r, hr, rfl⟩ := List.mem_map.1 ht
      unfold Mat.Continuous
      rw [hblock r (List.mem_range.1 hr)]
      simp only [Mat.elemSize, hElem', Nat.mul_one])
    hCont
  rw [← List.map_cons (fun r : Nat =>
    (⟨h, inputImage.cols, inputImage.type, inputImage.rowBytes (r * h) h⟩ : Mat)), ← hrange]
    at hplace
  rw [hplace]
  congr 1
  have hdata : (((List.range (P + 1)).map fun r : Nat =>
        (⟨h, inputImage.cols, inputImage.type, inputImage.rowBytes (r * h) h⟩ : Mat)).map
          Mat.data).flatten = inputImage.data := by
    rw [List.map_map, ← List.flatMap_def]
    have hrows := flatMap_rows inputImage.data 0 (h * inputImage.cols) (P + 1)
    simp only [Nat.zero_add, Nat.zero_mul, List.drop_zero] at hrows
    rw [← hlen, List.take_length] at hrows
    rw [← hrows]
    apply List.flatMap_congr
    intro r _
    simp only [Function.comp, Mat.rowBytes, hElem, Nat.mul_one, Nat.mul_assoc]
  rw [hdata, List.length_map, List.length_range']
  have hrows : h * (P + 1) = inputImage.rows := by rw [hh]; ring
  rw [hrows]

end ParallelImage
